import Mathlib

/-!
Verification of the lazy stream / tree-stream engine (`src/unnamed/part_000`,
the `stream.ts` module: `StreamImpl`, `TreeStreamImpl`, `stream` factory,
`isIterable`).

Shallow embedding conventions:
* A `StreamImpl<S, T>` pairs a state constructor and a step function
  `nextFn : S → IteratorResult<T>` that mutates the cursor state in place.
  We model a cursor step as a pure function `σ → Option τ × σ`: the first
  component is `none` for `{done: true}` (the `DONE_RESULT` sentinel carries
  no value) and `some v` for `{done: false, value: v}`; the second component
  is the mutated cursor state.
* JS `undefined` inside an element domain is modelled by instantiating the
  element type with `Option β` (`none` = `undefined`).  For element domains
  that cannot contain `undefined`, a plain type `τ` is used.
* `concat` and `distinct` capture mutable state (`other`'s iterator, the
  `Set`) at combinator-call time, outside the per-cursor state.  Such
  steps are modelled as `σ → γ → Option τ × σ × γ` where `γ` is the shared
  captured state, threaded across cursors of the same stream value.
* Loops whose bound is not structural are given explicit fuel; fuel-based
  functions return `none` when fuel runs out, and results are stable under
  adding fuel (monotonicity lemmas below).
-/

namespace LangiumStream

/-- Cursor step of the factory stream over an array-like / array iterator
(`stream(collection)`, part_000:860-883): the fresh cursor state is the list
of remaining elements; `next` yields the head. -/
def listNext {τ : Type} : List τ → Option τ × List τ
  | [] => (none, [])
  | x :: xs => (some x, xs)

/-- `StreamImpl.toArray` (part_000:518-529), with fuel counting `next` calls.
The loop pushes `next.value` only when it is `!== undefined`; `undefQ`
states which values of `τ` represent the JS value `undefined` (constantly
`false` for element domains that cannot contain `undefined`).  Returns
`none` if the stream does not terminate within `fuel` steps. -/
def toArray {σ τ : Type} (undefQ : τ → Bool) (next : σ → Option τ × σ) :
    Nat → σ → Option (List τ)
  | 0, _ => none
  | fuel + 1, st =>
    match next st with
    | (none, _) => some []
    | (some v, st') =>
      (toArray undefQ next fuel st').map (fun r => if undefQ v then r else v :: r)

/-- The raw element sequence a cursor yields (no `undefined` skipping):
`toArray` at a domain without `undefined`. -/
def drainAll {σ τ : Type} (next : σ → Option τ × σ) : Nat → σ → Option (List τ) :=
  toArray (fun _ => false) next

/-- Step function of `StreamImpl.map` (part_000:628-640): pulls the source,
returns `DONE_RESULT` when done, otherwise applies the callback. -/
def mapNext {σ τ υ : Type} (next : σ → Option τ × σ) (f : τ → υ) :
    σ → Option υ × σ := fun st =>
  match next st with
  | (none, st') => (none, st')
  | (some v, st') => (some (f v), st')

/-- Per-cursor state of `StreamImpl.concat` (part_000:535-559):
`{ first: this.startFn(), firstDone: false }`.  The iterator over `other`
is NOT part of this state: it is created once at combinator-call time
(`const iterator = other[Symbol.iterator]()`, line 536) and shared. -/
structure ConcatState (σ : Type) where
  first : σ
  firstDone : Bool
  deriving Repr, DecidableEq

/-- Step function of `StreamImpl.concat` (part_000:539-557).  `next₁` steps
the first source's cursor, `nextO` steps the shared iterator over `other`
(type `ι` is its state, threaded as shared state). Mirrors the two
do-while loops: drain the first source until done, set `firstDone`,
then drain the shared iterator. -/
def concatNext {σ ι τ : Type} (next₁ : σ → Option τ × σ) (nextO : ι → Option τ × ι)
    (cs : ConcatState σ) (io : ι) : Option τ × ConcatState σ × ι :=
  if cs.firstDone then
    match nextO io with
    | (some v, io') => (some v, cs, io')
    | (none, io') => (none, cs, io')
  else
    match next₁ cs.first with
    | (some v, f') => (some v, ⟨f', false⟩, io)
    | (none, f') =>
      match nextO io with
      | (some v, io') => (some v, ⟨f', true⟩, io')
      | (none, io') => (none, ⟨f', true⟩, io')

/-- `toArray` for a stream whose step reads and writes shared captured state
`γ` in addition to the cursor state (used for `concat` and `distinct`).
Returns the collected elements together with the final shared state, so
that a second cursor created over the same stream value can be drained
from where the first drain left the shared state. -/
def toArraySh {σ γ τ : Type} (undefQ : τ → Bool)
    (next : σ → γ → Option τ × σ × γ) : Nat → σ → γ → Option (List τ × γ)
  | 0, _, _ => none
  | fuel + 1, st, g =>
    match next st g with
    | (none, _, g') => some ([], g')
    | (some v, st', g') =>
      (toArraySh undefQ next fuel st' g').map
        (fun r => (if undefQ v then r.1 else v :: r.1, r.2))

/-- The predicate closure `distinct` passes to `filter` (part_000:813-824):
`set` is the captured `Set` (modelled as a list of keys), shared by all
cursors; returns the predicate result and the updated set. -/
def distinctPred {τ κ : Type} [DecidableEq κ] (key : τ → κ) (e : τ)
    (set : List κ) : Bool × List κ :=
  let value := key e
  if value ∈ set then (false, set) else (true, value :: set)

/-- Step function of `StreamImpl.filter` (part_000:642-656) specialized to a
list-backed source cursor, with a stateful predicate (the `distinct`
closure mutates its captured set): loop pulling the source until the
predicate accepts or the source is done. -/
def filterNextSL {τ κ : Type} (pred : τ → List κ → Bool × List κ) :
    List τ → List κ → Option τ × List τ × List κ
  | [], set => (none, [], set)
  | x :: xs, set =>
    match pred x set with
    | (true, set') => (some x, xs, set')
    | (false, set') => filterNextSL pred xs set'

/-- `StreamImpl.reduce` (part_000:658-671), elements and accumulator living
in `Option β` with `none` = JS `undefined` (the implementation's absence
placeholder).  `prev = none` is the code's `previousValue === undefined`
test: the current element then seeds the accumulator; otherwise the
callback combines.  Calling with no initial value is `init = none`.
Fuel counts `next` calls; `none` result = fuel exhausted. -/
def reduceFuel {σ β : Type} (f : β → Option β → Option β)
    (next : σ → Option (Option β) × σ) : Nat → σ → Option β → Option (Option β)
  | 0, _, _ => none
  | fuel + 1, st, prev =>
    match next st with
    | (none, _) => some prev
    | (some v, st') =>
      reduceFuel f next fuel st'
        (match prev with
         | none => v
         | some p => f p v)

/-- `StreamImpl.recursiveReduce` (part_000:677-687), the recursive
pull-before-combine strategy behind `reduceRight`: pull the next element,
recurse over the remainder first, then seed (`previousValue === undefined`)
or combine.  Same value conventions as `reduceFuel`. -/
def recursiveReduce {σ β : Type} (f : β → Option β → Option β)
    (next : σ → Option (Option β) × σ) : Nat → σ → Option β → Option (Option β)
  | 0, _, _ => none
  | fuel + 1, st, init =>
    match next st with
    | (none, _) => some init
    | (some v, st') =>
      (recursiveReduce f next fuel st' init).map
        (fun prev =>
          match prev with
          | none => v
          | some p => f p v)

/-- Modelled from the spec: the reference strategy for `reduceRight`
("buffer elements, then fold backward iteratively ... under the reduce
contract").  This is the `reduce` accumulator loop applied to an
already-buffered list of elements. -/
def reduceContractList {β : Type} (f : β → Option β → Option β)
    (l : List (Option β)) (init : Option β) : Option β :=
  l.foldl
    (fun prev v =>
      match prev with
      | none => v
      | some p => f p v)
    init

/-- Modelled from the spec: buffered-reversal `reduceRight` — buffer all
elements, reverse, fold iteratively from the last element toward the
first under the `reduce` contract. -/
def bufferedReduceRight {β : Type} (f : β → Option β → Option β)
    (l : List (Option β)) (init : Option β) : Option β :=
  reduceContractList f l.reverse init

/-- The start-state loop of `StreamImpl.tail` (part_000:797-811): advance
the fresh source cursor `skipCount` times, returning the state early if
the source reports done. -/
def skipN {σ τ : Type} (next : σ → Option τ × σ) : Nat → σ → σ
  | 0, st => st
  | k + 1, st =>
    match next st with
    | (none, st') => st'
    | (some _, st') => skipN next k st'

/-! ### Tree streams (`TreeStreamImpl`, part_000:907-948) -/

/-- Finite rose tree; the tree-stream element type.  A node carries a label
and the ordered list of its immediate children. -/
inductive Tree (α : Type) : Type
  | node : α → List (Tree α) → Tree α
  deriving Repr

/-- The `children` accessor passed to `TreeStreamImpl` for such trees. -/
def Tree.children {α : Type} : Tree α → List (Tree α)
  | .node _ cs => cs

/-- Cursor state of `TreeStreamImpl` (part_000:913-916): a stack of child
iterators (top of stack = head of list; each iterator is the list of
remaining siblings) plus the pending-prune flag. -/
structure TreeState (α : Type) where
  iterators : List (List α)
  pruned : Bool
  deriving Repr, DecidableEq

/-- The while loop of `TreeStreamImpl`'s step (part_000:922-931): advance
the top-of-stack iterator, popping exhausted iterators; on a produced
value push its children iterator and return it with the new stack. -/
def treeStep {α : Type} (children : α → List α) :
    List (List α) → Option (α × List (List α))
  | [] => none
  | [] :: rest => treeStep children rest
  | (x :: xs) :: rest => some (x, children x :: xs :: rest)

/-- Full step of `TreeStreamImpl` (part_000:917-933): first honour a pending
prune by popping the top iterator and clearing the flag, then run the
traversal loop; exhaustion leaves an emptied stack. -/
def treeNext {α : Type} (children : α → List α) (st : TreeState α) :
    Option α × TreeState α :=
  let stk := if st.pruned then st.iterators.tail else st.iterators
  match treeStep children stk with
  | none => (none, ⟨[], false⟩)
  | some (x, s) => (some x, ⟨s, false⟩)

/-- Initial cursor of `TreeStreamImpl` over root `t`
(`[children(root)[Symbol.iterator]()]`, part_000:913-916). -/
def treeStart {α : Type} (t : Tree α) : TreeState (Tree α) :=
  ⟨[t.children], false⟩

/-- Specification: pre-order list of all nodes of a forest, each node
emitted before its descendants, left siblings' subtrees complete before
right siblings. -/
def preOrderF {α : Type} : List (Tree α) → List (Tree α)
  | [] => []
  | Tree.node a cs :: rest => Tree.node a cs :: (preOrderF cs ++ preOrderF rest)

/-- Specification: the elements still to be produced from a traversal stack
(for each open level, the remaining siblings and their subtrees). -/
def stackSpec {α : Type} (stk : List (List (Tree α))) : List (Tree α) :=
  stk.flatMap preOrderF

/-- Node D of the spec's concrete tree scenario A→[B,C], B→[D]
(labels A=0, B=1, C=2, D=3). -/
def exD : Tree Nat := Tree.node 3 []

/-- Node B of the concrete tree scenario. -/
def exB : Tree Nat := Tree.node 1 [exD]

/-- Node C of the concrete tree scenario. -/
def exC : Tree Nat := Tree.node 2 []

/-- Root A of the concrete tree scenario. -/
def exA : Tree Nat := Tree.node 0 [exB, exC]

/-! ### `flat` / `flatMap` and the `isIterable` capability test
(part_000:727-786, 842-844) -/

/-- A JS value universe for the nested-sequence claims: numbers (not
iterable), strings (iterable, yielding their characters as one-character
strings) and arrays (iterable, yielding their elements). -/
inductive JSV : Type
  | num : Int → JSV
  | str : String → JSV
  | arr : List JSV → JSV

/-- The `Symbol.iterator` capability of a `JSV`: `none` when the value has
no iterator; `some items` gives the sequence the host iterator yields
(a JS string iterator yields its characters as one-character strings). -/
def jsIterate : JSV → Option (List JSV)
  | .num _ => none
  | .str s => some (s.data.map fun c => .str (String.mk [c]))
  | .arr l => some l

/-- `isIterable` (part_000:842-844): the duck-typed test
`typeof obj[Symbol.iterator] === 'function'`. -/
def isIterable (v : JSV) : Bool :=
  (jsIterate v).isSome

/-- Cursor state of `flat` / `flatMap` (part_000:728, 761):
`{ this: S, iterator?: Iterator }`; the inner iterator is the list of
items the current nested sequence still has to yield. -/
structure FlatState (σ : Type) where
  thisState : σ
  iterator : Option (List JSV)

/-- A fueled cursor step: `none` = internal fuel exhausted, otherwise the
`IteratorResult` and new state as in the pure model. -/
abbrev FStep (σ : Type) : Type := Nat → σ → Option (Option JSV × σ)

/-- Lift a pure cursor step to a fueled one (loop-free steps never consume
fuel). -/
def liftStep {σ τ : Type} (next : σ → Option τ × σ) :
    Nat → σ → Option (Option τ × σ) := fun _ st => some (next st)

/-- Step function of `StreamImpl.flat`'s wrapping layer (part_000:762-785):
the do-while loop pulls the current inner iterator first; when it is
absent or exhausted it pulls the wrapped stream, dispatching on
`isIterable(value)`: an iterable element installs its iterator and the
loop continues, a non-iterable element is yielded directly. -/
def flatStepF {σ : Type} (next : FStep σ) : Nat → FlatState σ → Option (Option JSV × FlatState σ)
  | 0, _ => none
  | fuel + 1, st =>
    match st.iterator with
    | some (x :: rest) => some (some x, ⟨st.thisState, some rest⟩)
    | _ =>
      match next fuel st.thisState with
      | none => none
      | some (none, s') => some (none, ⟨s', none⟩)
      | some (some v, s') =>
        match jsIterate v with
        | some items => flatStepF next fuel ⟨s', some items⟩
        | none => some (some v, ⟨s', none⟩)

/-- Step function of `StreamImpl.flatMap` (part_000:729-753): as
`flatStepF`, but the callback is applied to each element of the wrapped
stream before the `isIterable` dispatch. -/
def flatMapStepF {σ : Type} (next : FStep σ) (f : JSV → JSV) :
    Nat → FlatState σ → Option (Option JSV × FlatState σ)
  | 0, _ => none
  | fuel + 1, st =>
    match st.iterator with
    | some (x :: rest) => some (some x, ⟨st.thisState, some rest⟩)
    | _ =>
      match next fuel st.thisState with
      | none => none
      | some (none, s') => some (none, ⟨s', none⟩)
      | some (some v, s') =>
        let mapped := f v
        match jsIterate mapped with
        | some items => flatMapStepF next f fuel ⟨s', some items⟩
        | none => some (some mapped, ⟨s', none⟩)

/-- Drain a fueled cursor (`toArray` over fueled steps; elements of the
claims' nested-sequence examples never equal `undefined`, so no
skipping applies). -/
def drainF {σ τ : Type} (step : Nat → σ → Option (Option τ × σ)) :
    Nat → σ → Option (List τ)
  | 0, _ => none
  | n + 1, st =>
    match step n st with
    | none => none
    | some (none, _) => some []
    | some (some v, st') => (drainF step n st').map (v :: ·)

/-- State type of `flat(d)` for `d ≥ 0` nestings of the wrapping layer. -/
def flatStateType (σ : Type) : Nat → Type
  | 0 => σ
  | d + 1 => FlatState (flatStateType σ d)

/-- Step function of `flat(d)`: `d` nestings of `flatStepF`, mirroring
`const stream = depth > 1 ? this.flat(depth - 1) : this` (part_000:760)
followed by one wrapping layer. -/
def flatStepN {σ : Type} (next : FStep σ) : (d : Nat) → FStep (flatStateType σ d)
  | 0 => next
  | d + 1 => flatStepF (flatStepN next d)

/-- Initial cursor of `flat(d)` over a source cursor `s`: each wrapping
layer's start function is `() => ({ this: stream.startFn() })`
(part_000:763). -/
def flatInitN {σ : Type} (s : σ) : (d : Nat) → flatStateType σ d
  | 0 => s
  | d + 1 => ⟨flatInitN s d, none⟩

/-- `StreamImpl.flat` (part_000:756-786) as a stream-valued function of the
(integer) `depth` argument: `depth ≤ 0` returns `this` unchanged;
otherwise `depth` wrapping layers are built.  The result packages the
state type, step function and initial cursor of the returned stream. -/
def flatModel {σ : Type} (next : FStep σ) (s : σ) (depth : Int) :
    Σ τ : Type, (FStep τ × τ) :=
  if depth ≤ 0 then ⟨σ, next, s⟩
  else ⟨flatStateType σ depth.toNat, flatStepN next depth.toNat, flatInitN s depth.toNat⟩

/-- Specification helper for `flatMap`: what one element contributes after
the `isIterable` dispatch — an iterable value is drained item by item,
a non-iterable value is yielded as-is. -/
def jsExpand (v : JSV) : List JSV :=
  match jsIterate v with
  | some items => items
  | none => [v]

/-- The `flatMap` cursor step over an array-backed source stream. -/
def fmStep (f : JSV → JSV) :
    Nat → FlatState (List JSV) → Option (Option JSV × FlatState (List JSV)) :=
  flatMapStepF (liftStep listNext) f

/-- The nested example array `[[1,[2,3]],[4]]` from the spec's `flat`
scenario. -/
def nested2 : List JSV :=
  [JSV.arr [JSV.num 1, JSV.arr [JSV.num 2, JSV.num 3]], JSV.arr [JSV.num 4]]

/-! ## Theorems -/

/-- Fuel monotonicity of `toArray`: a drain that completes within `n` steps
returns the same result with any larger fuel. -/
theorem toArray_mono {σ τ : Type} (u : τ → Bool) (next : σ → Option τ × σ) :
    ∀ (n m : Nat) (st : σ) (l : List τ), toArray u next n st = some l → n ≤ m →
      toArray u next m st = some l := by
  intro n
  induction n with
  | zero => intro m st l h; simp [toArray] at h
  | succ k ih =>
    intro m st l h hle
    obtain ⟨m', rfl⟩ : ∃ m', m = m' + 1 := ⟨m - 1, by omega⟩
    simp only [toArray] at h ⊢
    cases hnx : next st with
    | mk v? st' =>
      rw [hnx] at h
      cases v? with
      | none => exact h
      | some v =>
        dsimp only at h ⊢
        cases hr : toArray u next k st' with
        | none => rw [hr] at h; simp at h
        | some r =>
          rw [hr] at h
          rw [ih m' st' r hr (by omega)]
          exact h

/-- Claim C6 (amended): for every sequence `S` (arbitrary cursor state and
step function) and every function `f`, over element domains that cannot
contain `undefined`, `S.map(f).toArray()` equals `S.toArray()` with `f`
applied elementwise, in the same order — at every fuel, hence in
particular for every finite sequence.  (The unamended claim, quantifying
over all `f`, fails when `f` can produce `undefined`: see the
counterexample.) -/
theorem map_toArray_amended {σ τ υ : Type} (next : σ → Option τ × σ) (f : τ → υ) :
    ∀ (n : Nat) (st : σ),
      toArray (fun _ => false) (mapNext next f) n st
        = (toArray (fun _ => false) next n st).map (List.map f) := by
  intro n
  induction n with
  | zero => intro st; rfl
  | succ k ih =>
    intro st
    simp only [toArray, mapNext]
    cases hnx : next st with
    | mk v? st' =>
      cases v? with
      | none => rfl
      | some v =>
        dsimp only
        rw [ih st']
        cases hr : toArray (fun _ => false) next k st' <;> simp [hr]

/-- Claim C6, counterexample to the unamended statement: for the
one-element sequence `[1]` and the function mapping everything to
`undefined`, `S.map(f).toArray()` is `[]` (the `toArray` loop at
part_000:524 pushes only values `!== undefined`), while `S.toArray()`
with `f` applied elementwise is `[undefined]`. -/
theorem map_toArray_cex :
    toArray Option.isNone (mapNext listNext (fun (_ : Nat) => (none : Option Nat))) 2 [1]
      ≠ (toArray (fun _ => false) listNext 2 [1]).map
          (List.map (fun _ => (none : Option Nat))) := by
  decide

/-- After `firstDone` is set, a `concat` cursor yields exactly what the
shared iterator over `other` yields (one shared-iterator pull per step). -/
theorem concat_secondPhase {σ ι τ : Type} (u : τ → Bool) (next₁ : σ → Option τ × σ)
    (nextO : ι → Option τ × ι) :
    ∀ (n : Nat) (s : σ) (io : ι),
      (toArraySh u (concatNext next₁ nextO) n ⟨s, true⟩ io).map Prod.fst
        = toArray u nextO n io := by
  intro n
  induction n with
  | zero => intro s io; rfl
  | succ k ih =>
    intro s io
    simp only [toArraySh, toArray, concatNext]
    cases hto : nextO io with
    | mk w? io' =>
      cases w? with
      | none => rfl
      | some w =>
        dsimp only
        rw [← ih s io']
        cases hr : toArraySh u (concatNext next₁ nextO) k ⟨s, true⟩ io' <;> simp [hr]

/-- Claim C5: for all finite sequences `S`, `T` (arbitrary cursor states,
completing within fuel `m` resp. `n`), `S.concat(T).toArray()` equals
`S.toArray()` followed by `T.toArray()`; and while the first source still
yields elements, a `concat` step leaves the iterator over the second
source untouched (the first source is fully exhausted before any element
of the second is requested). -/
theorem concat_toArray_append {σ ι τ : Type} (u : τ → Bool)
    (next₁ : σ → Option τ × σ) (nextO : ι → Option τ × ι) :
    (∀ (m n : Nat) (s : σ) (t : ι) (ls lt : List τ),
       toArray u next₁ m s = some ls → toArray u nextO n t = some lt →
       (toArraySh u (concatNext next₁ nextO) (m + n) ⟨s, false⟩ t).map Prod.fst
         = some (ls ++ lt))
    ∧ (∀ (cs : ConcatState σ) (io : ι) (v : τ) (f' : σ),
       cs.firstDone = false → next₁ cs.first = (some v, f') →
       concatNext next₁ nextO cs io = (some v, ⟨f', false⟩, io)) := by
  constructor
  · intro m
    induction m with
    | zero => intro n s t ls lt h1 h2; simp [toArray] at h1
    | succ k ih =>
      intro n s t ls lt h1 h2
      rw [Nat.succ_add]
      simp only [toArray] at h1
      simp only [toArraySh, concatNext]
      cases hnx : next₁ s with
      | mk v? s' =>
        rw [hnx] at h1
        cases v? with
        | some v =>
          dsimp only at h1 ⊢
          cases hr : toArray u next₁ k s' with
          | none => rw [hr] at h1; simp at h1
          | some ls' =>
            rw [hr] at h1
            have h1' : (if u v = true then ls' else v :: ls') = ls := by simpa using h1
            have hrec := ih n s' t ls' lt hr h2
            cases hsh : toArraySh u (concatNext next₁ nextO) (k + n) ⟨s', false⟩ t with
            | none => rw [hsh] at hrec; simp at hrec
            | some p =>
              rw [hsh] at hrec
              have hp : p.1 = ls' ++ lt := by simpa using hrec
              rw [← h1']
              by_cases hu : u v = true <;> simp [hu, hsh, hp]
        | none =>
          dsimp only at h1 ⊢
          obtain rfl : ls = [] := by simpa using h1.symm
          cases n with
          | zero => simp [toArray] at h2
          | succ n' =>
            simp only [toArray] at h2
            cases hto : nextO t with
            | mk w? t' =>
              rw [hto] at h2
              cases w? with
              | none =>
                obtain rfl : lt = [] := by simpa using h2.symm
                simp
              | some w =>
                dsimp only at h2 ⊢
                cases hr2 : toArray u nextO n' t' with
                | none => rw [hr2] at h2; simp at h2
                | some lt' =>
                  rw [hr2] at h2
                  have h2' : (if u w = true then lt' else w :: lt') = lt := by simpa using h2
                  have hsec := concat_secondPhase u next₁ nextO (k + n'.succ) s' t'
                  have hmono : toArray u nextO (k + n'.succ) t' = some lt' :=
                    toArray_mono u nextO n' (k + n'.succ) t' lt' hr2 (by omega)
                  rw [hmono] at hsec
                  cases hsh : toArraySh u (concatNext next₁ nextO) (k + n'.succ) ⟨s', true⟩ t' with
                  | none => rw [hsh] at hsec; simp at hsec
                  | some p =>
                    rw [hsh] at hsec
                    have hp : p.1 = lt' := by simpa using hsec
                    rw [← h2']
                    by_cases hu : u w = true <;> simp [hu, hsh, hp]
  · intro cs io v f' hdone hnx
    simp [concatNext, hdone, hnx]

/-- Witness for `concat_toArray_append` at `S = [1]`, `T = [2]`. -/
theorem concat_toArray_append_witness :
    (toArraySh (fun _ => false) (concatNext listNext listNext) (2 + 2)
        (⟨[1], false⟩ : ConcatState (List Nat)) [2]).map Prod.fst = some ([1] ++ [2])
    ∧ concatNext listNext listNext (⟨[1], false⟩ : ConcatState (List Nat)) [2]
        = (some 1, ⟨[], false⟩, [2]) :=
  ⟨(concat_toArray_append (fun _ => false) listNext listNext).1 2 2 [1] [2] [1] [2]
      (by decide) (by decide),
   (concat_toArray_append (fun _ => false) listNext listNext).2 ⟨[1], false⟩ [2] 1 []
      rfl (by decide)⟩

/-- Claim C1: the code violates re-iteration stability.  `distinct` captures
its `Set` (part_000:814) and `concat` the iterator over `other`
(part_000:536) at combinator-call time, outside the per-cursor state, so
the state is shared by all cursors of the resulting stream value.
Evaluating the embedded code: draining a fresh cursor of
`stream([1,2]).distinct()` yields `[1,2]` and leaves the shared seen-set
at `[2,1]`; draining a second fresh cursor of the same stream value
(source state restarts at `[1,2]`, shared set still `[2,1]`) yields `[]`.
Likewise `stream([1]).concat(stream([2]))`: the first drain yields
`[1,2]` and exhausts the shared iterator; a second fresh cursor yields
only `[1]`.  Both contradict the claimed cursor independence. -/
theorem concat_distinct_shared_state_bug :
    (toArraySh (fun _ => false) (filterNextSL (distinctPred (fun x => x))) 3
        ([1, 2] : List Nat) [] = some ([1, 2], [2, 1]))
    ∧ (toArraySh (fun _ => false) (filterNextSL (distinctPred (fun x => x))) 3
        ([1, 2] : List Nat) [2, 1] = some ([], [2, 1]))
    ∧ (toArraySh (fun _ => false) (concatNext listNext listNext) 3
        (⟨[1], false⟩ : ConcatState (List Nat)) [2] = some ([1, 2], []))
    ∧ (toArraySh (fun _ => false) (concatNext listNext listNext) 3
        (⟨[1], false⟩ : ConcatState (List Nat)) [] = some ([1], []))
    ∧ ([] : List Nat) ≠ [1, 2] ∧ ([1] : List Nat) ≠ [1, 2] := by
  decide

/-- The `reduce` loop with a seeded (defined) accumulator over defined
elements is a left fold. -/
theorem reduceFuel_foldl {β : Type} (f : β → β → β) :
    ∀ (xs : List β) (p : β),
      reduceFuel (fun p v => v.map (f p)) listNext (xs.length + 1) (xs.map some) (some p)
        = some (some (xs.foldl f p)) := by
  intro xs
  induction xs with
  | nil => intro p; rfl
  | cons v vs ih =>
    intro p
    simp only [List.map, List.length, reduceFuel, listNext, List.foldl]
    exact ih (f p v)

/-- Claim C2 (amended): `reduce` without an initial value on an empty
sequence returns the absence placeholder `undefined` (`none`), which is
distinct from every element value `some x` of a domain that cannot
contain `undefined`; `reduce` with explicit initial value `0` on an empty
numeric sequence returns `0`, not the "no result" placeholder; and for
every non-empty sequence of defined elements without an initial value,
the first visited element seeds the accumulator and folding proceeds
left-to-right over the remainder.  (The unamended "never conflated with
an element equal to the implementation's absence placeholder" fails: see
the counterexample.) -/
theorem reduce_amended :
    (∀ (β : Type) (f : β → Option β → Option β),
       reduceFuel f listNext 1 ([] : List (Option β)) none = some none)
    ∧ (∀ (f : Nat → Option Nat → Option Nat),
       reduceFuel f listNext 1 ([] : List (Option Nat)) (some 0) = some (some 0)
       ∧ (some (0 : Nat) : Option Nat) ≠ none)
    ∧ (∀ (β : Type) (f : β → β → β) (x : β) (xs : List β),
       reduceFuel (fun p v => v.map (f p)) listNext (xs.length + 2)
         ((x :: xs).map some) none = some (some (xs.foldl f x))) := by
  refine ⟨fun β f => rfl, fun f => ⟨rfl, by simp⟩, fun β f x xs => ?_⟩
  simp only [List.map, List.length, reduceFuel, listNext]
  exact reduceFuel_foldl f xs x

/-- Claim C2, counterexample to the unamended statement: `previousValue ===
undefined` (part_000:663) is the code's only absence test, so reducing
the non-empty sequence `[undefined]` without an initial value returns
`undefined` — exactly the same outcome as reducing the empty sequence.
The "no result" outcome is therefore conflated with an element equal to
the implementation's absence placeholder, and that element does not seed
the accumulator in the claimed sense. -/
theorem reduce_undefined_conflation_cex :
    reduceFuel (fun (p : Nat) (_ : Option Nat) => some p) listNext 2
        ([none] : List (Option Nat)) none
      = reduceFuel (fun (p : Nat) (_ : Option Nat) => some p) listNext 1
        ([] : List (Option Nat)) none
    ∧ reduceFuel (fun (p : Nat) (_ : Option Nat) => some p) listNext 2
        ([none] : List (Option Nat)) none = some none := by
  decide

/-- Claim C7: for every finite sequence (arbitrary cursor completing within
fuel `n`, elements drawn from a domain with `undefined`) and every
combine function, with or without an initial value (`init = none` is the
omitted case), the recursive pull-before-combine `reduceRight` returns
exactly the result of the reference strategy that buffers all elements,
reverses them, and folds iteratively from the last element toward the
first under the `reduce` contract. -/
theorem reduceRight_buffered_equiv {σ β : Type} (f : β → Option β → Option β)
    (next : σ → Option (Option β) × σ) :
    ∀ (n : Nat) (st : σ) (l : List (Option β)) (init : Option β),
      drainAll next n st = some l →
      recursiveReduce f next n st init = some (bufferedReduceRight f l init) := by
  intro n
  induction n with
  | zero => intro st l init h; simp [drainAll, toArray] at h
  | succ k ih =>
    intro st l init h
    simp only [drainAll, toArray] at h
    simp only [recursiveReduce]
    cases hnx : next st with
    | mk v? st' =>
      rw [hnx] at h
      cases v? with
      | none =>
        obtain rfl : l = [] := by simpa using h.symm
        simp [bufferedReduceRight, reduceContractList]
      | some v =>
        dsimp only at h ⊢
        cases hr : toArray (fun _ => false) next k st' with
        | none => rw [hr] at h; simp at h
        | some l' =>
          rw [hr] at h
          have hl : v :: l' = l := by simpa using h
          rw [ih st' l' init hr]
          subst hl
          simp [bufferedReduceRight, reduceContractList, List.foldl_append]

/-- Witness for `reduceRight_buffered_equiv` at the sequence
`[1, 2, 5]` (as defined values) with subtraction as combine function. -/
theorem reduceRight_buffered_equiv_witness :
    recursiveReduce (fun p v => some (p - v.getD 0)) listNext 4
        ([some 1, some 2, some 5] : List (Option Int)) none
      = some (bufferedReduceRight (fun p v => some (p - v.getD 0))
          [some 1, some 2, some 5] none) :=
  reduceRight_buffered_equiv _ listNext 4 _ _ none (by decide)

/-- Claim C9: for every sequence whose step function reports exhaustion
stably (as all engine cursors do), `tail(k)`'s start function
pre-advances a fresh cursor `k` times, stopping early at exhaustion, and
the resulting stream yields exactly the remaining elements in order:
its drain is `drop k` of the source drain.  In particular, on a sequence
with fewer than `k` elements the result is empty rather than an error. -/
theorem tail_skips_gracefully {σ τ : Type} (next : σ → Option τ × σ)
    (hstable : ∀ st st', next st = (none, st') → next st' = (none, st')) :
    ∀ (k n : Nat) (st : σ) (l : List τ),
      drainAll next n st = some l →
      drainAll next n (skipN next k st) = some (l.drop k) := by
  intro k
  induction k with
  | zero => intro n st l h; simpa [skipN] using h
  | succ j ih =>
    intro n st l h
    cases n with
    | zero => simp [drainAll, toArray] at h
    | succ m =>
      simp only [drainAll, toArray] at h
      cases hnx : next st with
      | mk v? st' =>
        rw [hnx] at h
        cases v? with
        | none =>
          obtain rfl : l = [] := by simpa using h.symm
          simp only [skipN]
          rw [hnx]
          simp only [drainAll, toArray]
          rw [hstable st st' hnx]
          simp
        | some v =>
          dsimp only at h
          cases hr : toArray (fun _ => false) next m st' with
          | none => rw [hr] at h; simp at h
          | some l' =>
            rw [hr] at h
            have hl : v :: l' = l := by simpa using h
            subst hl
            simp only [skipN]
            rw [hnx]
            have hmono := toArray_mono (fun _ => false) next m (m + 1)
              (skipN next j st') (l'.drop j) (ih m st' l' hr) (by omega)
            simpa using hmono

/-- Witness for `tail_skips_gracefully`: `tail(5)` on the 3-element
sequence `[1, 2, 3]` yields an empty sequence. -/
theorem tail_skips_gracefully_witness :
    drainAll listNext 4 (skipN listNext 5 ([1, 2, 3] : List Nat)) = some [] := by
  have := tail_skips_gracefully listNext
    (fun st st' h => by cases st <;> simp_all [listNext]) 5 4 [1, 2, 3] [1, 2, 3]
    (by decide)
  simpa using this

/-- Unfolding `preOrderF` on a cons without destructuring the head tree. -/
theorem preOrderF_cons {α : Type} (t : Tree α) (rest : List (Tree α)) :
    preOrderF (t :: rest) = t :: (preOrderF t.children ++ preOrderF rest) := by
  cases t
  simp [preOrderF, Tree.children]

/-- Unfolding `stackSpec` on a cons. -/
theorem stackSpec_cons {α : Type} (l : List (Tree α)) (rest : List (List (Tree α))) :
    stackSpec (l :: rest) = preOrderF l ++ stackSpec rest := by
  simp [stackSpec]

/-- One-step unfolding of a full drain. -/
theorem drainAll_succ {σ τ : Type} (next : σ → Option τ × σ) (n : Nat) (st : σ) :
    drainAll next (n + 1) st
      = match next st with
        | (none, _) => some []
        | (some v, st') => (drainAll next n st').map (v :: ·) := by
  simp only [drainAll, toArray]
  cases hnx : next st with
  | mk v? st' => cases v? <;> simp

/-- One traversal-loop step, related to the stack specification: exhaustion
means nothing is left; a produced value is the head of the remaining
specification, and the new stack top is that value's children iterator. -/
theorem treeStep_spec {α : Type} :
    ∀ (stk : List (List (Tree α))),
      (treeStep Tree.children stk = none → stackSpec stk = [])
      ∧ (∀ x s, treeStep Tree.children stk = some (x, s) →
          stackSpec stk = x :: stackSpec s ∧ s = x.children :: s.tail) := by
  intro stk
  induction stk with
  | nil =>
    exact ⟨fun _ => rfl, fun x s h => by simp [treeStep] at h⟩
  | cons top rest ih =>
    cases top with
    | nil =>
      refine ⟨fun h => ?_, fun x s h => ?_⟩
      · simp only [treeStep] at h
        simp [stackSpec_cons, preOrderF, ih.1 h]
      · simp only [treeStep] at h
        obtain ⟨h1, h2⟩ := ih.2 x s h
        refine ⟨?_, h2⟩
        simpa [stackSpec_cons, preOrderF] using h1
    | cons t ts =>
      refine ⟨fun h => by simp [treeStep] at h, fun x s h => ?_⟩
      simp only [treeStep, Option.some.injEq] at h
      obtain ⟨rfl, rfl⟩ : t = x ∧ Tree.children t :: ts :: rest = s := by
        simpa using h
      refine ⟨?_, rfl⟩
      simp [stackSpec_cons, preOrderF_cons, List.append_assoc]

/-- Draining a tree cursor (no pending prune) yields exactly the stack
specification, with fuel = one call per produced node plus the final
exhaustion call. -/
theorem treeDrain {α : Type} :
    ∀ (stk : List (List (Tree α))),
      drainAll (treeNext Tree.children) ((stackSpec stk).length + 1) ⟨stk, false⟩
        = some (stackSpec stk) := by
  intro stk
  generalize hn : (stackSpec stk).length = n
  induction n using Nat.strong_induction_on generalizing stk with
  | _ n IH =>
    cases hts : treeStep Tree.children stk with
    | none =>
      have hsp := (treeStep_spec stk).1 hts
      rw [hsp] at hn
      simp only [List.length_nil] at hn
      subst hn
      rw [drainAll_succ]
      have hstep : treeNext Tree.children ⟨stk, false⟩ = (none, ⟨[], false⟩) := by
        simp [treeNext, hts]
      rw [hstep, hsp]
    | some p =>
      obtain ⟨x, s⟩ := p
      obtain ⟨hspec, hhead⟩ := (treeStep_spec stk).2 x s hts
      rw [hspec] at hn
      simp only [List.length_cons] at hn
      subst hn
      have hrec := IH (stackSpec s).length (by omega) s rfl
      rw [drainAll_succ]
      have hstep : treeNext Tree.children ⟨stk, false⟩ = (some x, ⟨s, false⟩) := by
        simp [treeNext, hts]
      rw [hstep]
      dsimp only
      rw [hrec, hspec]
      rfl

/-- A pending prune pops the top iterator before the traversal loop runs:
a pruned cursor steps exactly like an unpruned cursor over the popped
stack. -/
theorem treeNext_pruned {α : Type} (children : α → List α) (stk : List (List α)) :
    treeNext children ⟨stk, true⟩ = treeNext children ⟨stk.tail, false⟩ := rfl

/-- Drain version of `treeNext_pruned`. -/
theorem drain_pruned {α : Type} (stk : List (List (Tree α))) (n : Nat) :
    drainAll (treeNext Tree.children) n ⟨stk, true⟩
      = drainAll (treeNext Tree.children) n ⟨stk.tail, false⟩ := by
  cases n with
  | zero => rfl
  | succ m =>
    simp only [drainAll, toArray]
    rw [treeNext_pruned]

/-- Claim C3: for every (finite) root and children function — presented as
an inductive rose tree with its `children` accessor — the tree stream
yields every descendant exactly once, in pre-order, with the root
excluded: its drain is exactly `preOrderF` of the root's children.
Concretely, for the tree A→[B,C], B→[D], iterating with no pruning
yields [B, D, C]; and after the first step has produced B, setting the
pending-prune flag (`prune()`) makes the remainder of that same
iteration yield [C], skipping D. -/
theorem tree_preorder_traversal :
    (∀ (α : Type) (t : Tree α),
       drainAll (treeNext Tree.children) ((preOrderF t.children).length + 1) (treeStart t)
         = some (preOrderF t.children))
    ∧ drainAll (treeNext Tree.children) 4 (treeStart exA) = some [exB, exD, exC]
    ∧ treeNext Tree.children (treeStart exA) = (some exB, ⟨[[exD], [exC]], false⟩)
    ∧ drainAll (treeNext Tree.children) 2 ⟨[[exD], [exC]], true⟩ = some [exC] := by
  refine ⟨fun α t => ?_, rfl, rfl, rfl⟩
  have h := treeDrain [t.children]
  simpa [stackSpec, treeStart] using h

/-- Claim C4: whenever a traversal step over any stack produces a node `x`,
the post-state's stack is `x`'s children iterator on top of the rest;
draining it unpruned yields `x`'s proper descendants followed by the
rest of the traversal (`stackSpec` of the remaining stack: `x`'s
remaining right siblings, then the open ancestors' remaining siblings,
in unchanged order), while draining it with the prune flag set yields
exactly that rest.  The remaining traversal after `prune()` is therefore
the unpruned remainder with exactly `x`'s proper descendants removed;
already-emitted nodes are unaffected since both runs share the session
history up to `x`. -/
theorem tree_prune_frame {α : Type} :
    ∀ (stk : List (List (Tree α))) (x : Tree α) (st' : TreeState (Tree α)),
      treeNext Tree.children ⟨stk, false⟩ = (some x, st') →
      st'.pruned = false
      ∧ st'.iterators = x.children :: st'.iterators.tail
      ∧ drainAll (treeNext Tree.children) ((stackSpec st'.iterators).length + 1) st'
          = some (preOrderF x.children ++ stackSpec st'.iterators.tail)
      ∧ drainAll (treeNext Tree.children) ((stackSpec st'.iterators.tail).length + 1)
          ⟨st'.iterators, true⟩
          = some (stackSpec st'.iterators.tail) := by
  intro stk x st' h
  cases hts : treeStep Tree.children stk with
  | none =>
    have hstep : treeNext Tree.children ⟨stk, false⟩ = (none, ⟨[], false⟩) := by
      simp [treeNext, hts]
    rw [hstep] at h
    simp at h
  | some p =>
    obtain ⟨y, s⟩ := p
    have hstep : treeNext Tree.children ⟨stk, false⟩ = (some y, ⟨s, false⟩) := by
      simp [treeNext, hts]
    rw [hstep] at h
    injection h with h1 h2
    injection h1 with h1
    subst h1
    subst h2
    obtain ⟨hspec, hhead⟩ := (treeStep_spec stk).2 y s hts
    refine ⟨rfl, hhead, ?_, ?_⟩
    · have hd := treeDrain s
      rw [hd]
      have hsplit : stackSpec s = preOrderF y.children ++ stackSpec s.tail := by
        conv_lhs => rw [hhead]
        exact stackSpec_cons _ _
      rw [← hsplit]
    · have hd := treeDrain s.tail
      rw [drain_pruned]
      exact hd

/-- Witness for `tree_prune_frame` at the concrete scenario: the first step
over A's children produces B; the unpruned remainder is [D, C], the
pruned remainder is [C]. -/
theorem tree_prune_frame_witness :
    drainAll (treeNext Tree.children) 3 (⟨[[exD], [exC]], false⟩ : TreeState (Tree Nat))
      = some [exD, exC]
    ∧ drainAll (treeNext Tree.children) 2
        (⟨[[exD], [exC]], true⟩ : TreeState (Tree Nat)) = some [exC] := by
  have h := tree_prune_frame [[exB, exC]] exB ⟨[[exD], [exC]], false⟩ rfl
  refine ⟨?_, ?_⟩
  · have := h.2.2.1
    simpa [stackSpec, preOrderF, exB, exC, exD, Tree.children] using this
  · have := h.2.2.2
    simpa [stackSpec, preOrderF, exB, exC, exD, Tree.children] using this

/-- One-step unfolding of `drainF`. -/
theorem drainF_succ {σ τ : Type} (step : Nat → σ → Option (Option τ × σ)) (n : Nat) (st : σ) :
    drainF step (n + 1) st
      = match step n st with
        | none => none
        | some (none, _) => some []
        | some (some v, st') => (drainF step n st').map (v :: ·) := rfl

/-- Fuel monotonicity of `drainF`, given a fuel-monotone step. -/
theorem drainF_mono {σ τ : Type} (step : Nat → σ → Option (Option τ × σ))
    (hstep : ∀ (n : Nat) (st : σ) r, step n st = some r → step (n + 1) st = some r) :
    ∀ (n : Nat) (st : σ) (l : List τ),
      drainF step n st = some l → drainF step (n + 1) st = some l := by
  intro n
  induction n with
  | zero => intro st l h; simp [drainF] at h
  | succ k ih =>
    intro st l h
    rw [drainF_succ] at h
    rw [drainF_succ]
    cases hs : step k st with
    | none => rw [hs] at h; simp at h
    | some p =>
      rw [hs] at h
      rw [hstep k st p hs]
      obtain ⟨v?, st'⟩ := p
      cases v? with
      | none => exact h
      | some v =>
        dsimp only at h ⊢
        cases hr : drainF step k st' with
        | none => rw [hr] at h; simp at h
        | some l' =>
          rw [hr] at h
          rw [ih st' l' hr]
          exact h

/-- `drainF_mono`, iterated to any larger fuel. -/
theorem drainF_le {σ τ : Type} (step : Nat → σ → Option (Option τ × σ))
    (hstep : ∀ (n : Nat) (st : σ) r, step n st = some r → step (n + 1) st = some r) :
    ∀ (n m : Nat) (st : σ) (l : List τ),
      drainF step n st = some l → n ≤ m → drainF step m st = some l := by
  intro n m st l h hle
  obtain ⟨d, rfl⟩ : ∃ d, m = n + d := ⟨m - n, by omega⟩
  clear hle
  induction d with
  | zero => exact h
  | succ e ihe => exact drainF_mono step hstep (n + e) st l ihe

/-- The outer-pull phase of a `flatMap` step over an array-backed source:
with no (or an exhausted) inner iterator, the step pulls the source and
dispatches on `isIterable` of the mapped value. -/
theorem fmStep_outer (f : JSV → JSV) (k : Nat) (ts : List JSV) :
    ∀ it, (it = none ∨ it = some []) →
    fmStep f (k + 1) ⟨ts, it⟩
      = match ts with
        | [] => some (none, (⟨[], none⟩ : FlatState (List JSV)))
        | x :: xs =>
          match jsIterate (f x) with
          | some items => fmStep f k ⟨xs, some items⟩
          | none => some (some (f x), ⟨xs, none⟩) := by
  rintro it (rfl | rfl) <;> cases ts <;> rfl

/-- Fuel monotonicity of the `flatMap` step. -/
theorem fmStep_mono (f : JSV → JSV) :
    ∀ (n : Nat) (st : FlatState (List JSV)) r,
      fmStep f n st = some r → fmStep f (n + 1) st = some r := by
  intro n
  induction n with
  | zero => intro st r h; simp [fmStep, flatMapStepF] at h
  | succ k ih =>
    intro st r h
    obtain ⟨ts, it⟩ := st
    have common :
        ∀ hit : it = none ∨ it = some [],
          fmStep f (k + 1 + 1) ⟨ts, it⟩ = some r := by
      intro hit
      rw [fmStep_outer f k ts it hit] at h
      rw [fmStep_outer f (k + 1) ts it hit]
      cases ts with
      | nil => exact h
      | cons x xs =>
        dsimp only at h ⊢
        cases hj : jsIterate (f x) with
        | none => rw [hj] at h; exact h
        | some items => rw [hj] at h; exact ih ⟨xs, some items⟩ r h
    cases it with
    | none => exact common (Or.inl rfl)
    | some l =>
      cases l with
      | nil => exact common (Or.inr rfl)
      | cons x rest => exact h

/-- A step over an exhausted inner iterator equals a step with no inner
iterator. -/
theorem fmStep_emptyIter (f : JSV → JSV) :
    ∀ (m : Nat) (l : List JSV), fmStep f m ⟨l, some []⟩ = fmStep f m ⟨l, none⟩ := by
  intro m l
  cases m with
  | zero => rfl
  | succ k =>
    rw [fmStep_outer f k l (some []) (Or.inr rfl),
      fmStep_outer f k l none (Or.inl rfl)]

/-- Drain version of `fmStep_emptyIter`. -/
theorem fm_drain_emptyIter (f : JSV → JSV) :
    ∀ (n : Nat) (l : List JSV),
      drainF (fmStep f) n ⟨l, some []⟩ = drainF (fmStep f) n ⟨l, none⟩ := by
  intro n l
  cases n with
  | zero => rfl
  | succ m => rw [drainF_succ, drainF_succ, fmStep_emptyIter]

/-- A non-empty inner iterator yields its head before anything else. -/
theorem fm_drain_iterCons (f : JSV → JSV) (i : JSV) (is l : List JSV) (k : Nat) :
    drainF (fmStep f) (k + 2) ⟨l, some (i :: is)⟩
      = (drainF (fmStep f) (k + 1) ⟨l, some is⟩).map (i :: ·) := rfl

/-- Consuming a source element whose image under the callback is iterable:
the installed inner iterator takes over. -/
theorem fm_drain_iterable (f : JSV → JSV) (x : JSV) (xs items : List JSV)
    (n : Nat) (r : List JSV) (hj : jsIterate (f x) = some items)
    (hdrain : drainF (fmStep f) n ⟨xs, some items⟩ = some r) :
    drainF (fmStep f) (n + 1) ⟨x :: xs, none⟩ = some r := by
  cases n with
  | zero => simp [drainF] at hdrain
  | succ m =>
    have hstep1 : fmStep f (m + 1) ⟨x :: xs, none⟩ = fmStep f m ⟨xs, some items⟩ := by
      rw [fmStep_outer f m (x :: xs) none (Or.inl rfl)]
      dsimp only
      rw [hj]
    rw [drainF_succ] at hdrain
    rw [drainF_succ, hstep1]
    cases hs : fmStep f m ⟨xs, some items⟩ with
    | none => rw [hs] at hdrain; simp at hdrain
    | some p =>
      rw [hs] at hdrain
      obtain ⟨v?, st'⟩ := p
      cases v? with
      | none => exact hdrain
      | some v =>
        dsimp only at hdrain ⊢
        cases hr : drainF (fmStep f) m st' with
        | none => rw [hr] at hdrain; simp at hdrain
        | some r' =>
          rw [hr] at hdrain
          rw [drainF_mono (fmStep f) (fmStep_mono f) m st' r' hr]
          exact hdrain

/-- Consuming a source element whose image under the callback is not
iterable: the mapped value is yielded directly. -/
theorem fm_drain_scalar (f : JSV → JSV) (x : JSV) (xs : List JSV)
    (n : Nat) (r : List JSV) (hj : jsIterate (f x) = none)
    (hdrain : drainF (fmStep f) n ⟨xs, none⟩ = some r) :
    drainF (fmStep f) (n + 1) ⟨x :: xs, none⟩ = some (f x :: r) := by
  cases n with
  | zero => simp [drainF] at hdrain
  | succ m =>
    have hstep1 : fmStep f (m + 1) ⟨x :: xs, none⟩ = some (some (f x), ⟨xs, none⟩) := by
      rw [fmStep_outer f m (x :: xs) none (Or.inl rfl)]
      dsimp only
      rw [hj]
    rw [drainF_succ, hstep1]
    dsimp only
    rw [hdrain]
    rfl

/-- Full drain of `flatMap` over an array-backed source: each element
contributes `jsExpand` of its image. -/
theorem fm_drain (f : JSV → JSV) :
    ∀ (l : List JSV), ∃ n, drainF (fmStep f) n ⟨l, none⟩
      = some (l.flatMap (fun x => jsExpand (f x))) := by
  intro l
  induction l with
  | nil => exact ⟨2, rfl⟩
  | cons x xs ih =>
    cases hj : jsIterate (f x) with
    | none =>
      obtain ⟨n, hn⟩ := ih
      refine ⟨n + 1, ?_⟩
      have hs := fm_drain_scalar f x xs n _ hj hn
      simpa [jsExpand, hj] using hs
    | some items =>
      have hIt : ∀ (its : List JSV),
          ∃ m, drainF (fmStep f) m ⟨xs, some its⟩
            = some (its ++ xs.flatMap (fun x => jsExpand (f x))) := by
        intro its
        induction its with
        | nil =>
          obtain ⟨n, hn⟩ := ih
          refine ⟨n, ?_⟩
          rw [fm_drain_emptyIter]
          simpa using hn
        | cons i is ihis =>
          obtain ⟨m, hm⟩ := ihis
          refine ⟨m + 2, ?_⟩
          rw [fm_drain_iterCons]
          rw [drainF_mono (fmStep f) (fmStep_mono f) m _ _ hm]
          simp
      obtain ⟨m, hm⟩ := hIt items
      refine ⟨m + 1, ?_⟩
      have hi := fm_drain_iterable f x xs items m _ hj hm
      simpa [jsExpand, hj] using hi

/-- Claim C10: the nested-sequence test in `flatMap`/`flat` is the
capability check `isIterable`, which accepts strings and arrays and
rejects numbers; consequently, for every callback and every array-backed
sequence, each element whose image is host-iterable is drained item by
item (`jsExpand` = the items of its iterator), and only non-iterable
values are yielded as-is; in particular a plain string element of `flat`
is expanded into its individual characters. -/
theorem flatMap_isIterable_spec :
    (∀ s : String, isIterable (JSV.str s) = true)
    ∧ (∀ l : List JSV, isIterable (JSV.arr l) = true)
    ∧ (∀ n : Int, isIterable (JSV.num n) = false)
    ∧ (∀ (f : JSV → JSV) (l : List JSV),
       ∃ fuel, drainF (fmStep f) fuel ⟨l, none⟩
         = some (l.flatMap (fun x => jsExpand (f x))))
    ∧ drainF (flatStepF (liftStep listNext)) 16 ⟨[JSV.str "ab", JSV.num 5], none⟩
        = some [JSV.str "a", JSV.str "b", JSV.num 5] :=
  ⟨fun _ => rfl, fun _ => rfl, fun _ => rfl, fm_drain, rfl⟩

/-- Claim C8: `flat(depth)` with `depth ≤ 0` returns the stream itself (a
no-op); for `depth > 1` it is one flattening layer over `flat(depth−1)`
(whose own components the second equation exhibits); concretely,
`flat(2)` on `[[1,[2,3]],[4]]` yields `[1,2,3,4]` and `flat(1)` on the
same input yields `[1,[2,3],4]`. -/
theorem flat_depth_spec :
    (∀ (σ : Type) (next : FStep σ) (s : σ) (depth : Int), depth ≤ 0 →
       flatModel next s depth = ⟨σ, next, s⟩)
    ∧ (∀ (σ : Type) (next : FStep σ) (s : σ) (depth : Int), 1 < depth →
       flatModel next s depth
         = ⟨FlatState (flatStateType σ (depth - 1).toNat),
            flatStepF (flatStepN next (depth - 1).toNat),
            (⟨flatInitN s (depth - 1).toNat, none⟩ :
              FlatState (flatStateType σ (depth - 1).toNat))⟩
       ∧ flatModel next s (depth - 1)
           = ⟨flatStateType σ (depth - 1).toNat, flatStepN next (depth - 1).toNat,
              flatInitN s (depth - 1).toNat⟩)
    ∧ drainF (flatStepN (liftStep listNext) 2) 32 (flatInitN nested2 2)
        = some [JSV.num 1, JSV.num 2, JSV.num 3, JSV.num 4]
    ∧ drainF (flatStepN (liftStep listNext) 1) 32 (flatInitN nested2 1)
        = some [JSV.num 1, JSV.arr [JSV.num 2, JSV.num 3], JSV.num 4] := by
  refine ⟨?_, ?_, rfl, rfl⟩
  · intro σ next s depth hle
    simp [flatModel, hle]
  · intro σ next s depth hgt
    constructor
    · simp only [flatModel, if_neg (show ¬ depth ≤ 0 by omega)]
      have hh : depth.toNat = (depth - 1).toNat + 1 := by omega
      rw [hh]
      rfl
    · simp only [flatModel, if_neg (show ¬ depth - 1 ≤ 0 by omega)]

/-- Witness for `flat_depth_spec` at `depth = -1` (no-op) and `depth = 2`
(one layer over `flat(1)`). -/
theorem flat_depth_spec_witness :
    flatModel (liftStep listNext) nested2 (-1) = ⟨List JSV, liftStep listNext, nested2⟩
    ∧ flatModel (liftStep listNext) nested2 2
        = ⟨FlatState (flatStateType (List JSV) 1),
           flatStepF (flatStepN (liftStep listNext) 1),
           (⟨flatInitN nested2 1, none⟩ : FlatState (flatStateType (List JSV) 1))⟩ := by
  constructor
  · exact flat_depth_spec.1 (List JSV) (liftStep listNext) nested2 (-1) (by decide)
  · have h := (flat_depth_spec.2.1 (List JSV) (liftStep listNext) nested2 2 (by decide)).1
    simpa using h

end LangiumStream
